import Mathlib

/-
Verification of the context-aware task store of "quill" (Quill Task).
The repository snapshot ships only documentation (README.md, DEPLOYMENT.md),
a Homebrew formula and a VSCode language extension; the Rust core
(src/app.rs, src/storage/, src/git.rs) is absent, so the task-store,
undo-ledger, storage-backend and context-resolver semantics below are
modelled from the specification, as marked on each definition.
-/

namespace Quill

/-- Modelled from the spec: `TaskStatus` — closed variant set
{NotStarted, InProgress, Completed} (src/README.md lists the same three
variants). The Rust enum itself is absent from the snapshot. -/
inductive TaskStatus
  | NotStarted
  | InProgress
  | Completed
deriving DecidableEq

/-- Modelled from the spec: the cycling order
NotStarted → InProgress → Completed → NotStarted. -/
def nextStatus : TaskStatus → TaskStatus
  | .NotStarted => .InProgress
  | .InProgress => .Completed
  | .Completed => .NotStarted

/-- Modelled from the spec: `Task` record {id, text, status, created_at}
(the same four fields appear in src/README.md, "Task Data Structure");
`created_at` is kept as an opaque timestamp string. -/
structure Task where
  id : Nat
  text : String
  status : TaskStatus
  created_at : String
deriving DecidableEq

/-- Modelled from the spec: `TaskCollection` — ordered sequence of Task. -/
abbrev TaskCollection := List Task

/-- Modelled from the spec: `Context` — {organization, repository, branch},
equal iff all three fields match exactly. -/
structure Context where
  organization : String
  repository : String
  branch : String
deriving DecidableEq

/-- Modelled from the spec: error taxonomy of the Task Store
(`InvalidInput`, `TaskCompleted`, `NotFound`). -/
inductive TaskError
  | InvalidInput
  | TaskCompleted
  | NotFound
deriving DecidableEq

/-- Modelled from the spec: `UndoError` — {NothingToUndo, IdConflict}. -/
inductive UndoError
  | NothingToUndo
  | IdConflict
deriving DecidableEq

/-- Modelled from the spec: `DeletedEntry` —
{task, original_index, deleted_at}, held by the Undo Ledger. -/
structure DeletedEntry where
  task : Task
  original_index : Nat
  deleted_at : String
deriving DecidableEq

/-- Modelled from the spec: Undo Ledger push — bounded ring buffer of
capacity 3 with FIFO eviction of the oldest entry on overflow. The ledger
list is kept oldest-first, newest last. -/
def ledgerPush (e : DeletedEntry) (l : List DeletedEntry) : List DeletedEntry :=
  if l.length < 3 then l ++ [e] else l.drop 1 ++ [e]

/-- Modelled from the spec: Undo Ledger `pop_most_recent()`. -/
def popMostRecent (l : List DeletedEntry) : Option (DeletedEntry × List DeletedEntry) :=
  match l.getLast? with
  | none => none
  | some e => some (e, l.dropLast)

/-- Modelled from the spec: the Task Store's session state — the active
in-memory collection plus the Undo Ledger. -/
structure StoreState where
  tasks : TaskCollection
  ledger : List DeletedEntry
deriving DecidableEq

/-- The empty session state (empty collection, empty undo ledger). -/
def initState : StoreState := ⟨[], []⟩

/-- A text is rejected by `add` when it is empty or whitespace-only. -/
def isBlank (s : String) : Bool := s.data.all Char.isWhitespace

/-- Maximum task id occurring in a collection (0 on the empty collection). -/
def maxId (ts : TaskCollection) : Nat := (ts.map Task.id).foldr max 0

/-- Modelled from the spec: id assignment of `add` — max existing id in
context + 1, or 0 if the collection is empty. -/
def nextId (ts : TaskCollection) : Nat :=
  match ts with
  | [] => 0
  | _ :: _ => maxId ts + 1

/-- Modelled from the spec: `add(text)` — rejects empty/whitespace-only
text with `InvalidInput`; otherwise appends a task with the next unused id,
default status NotStarted and `created_at` set to the current time `now`.
Persistence is modelled separately by the storage backends. -/
def add (now text : String) (ts : TaskCollection) :
    Except TaskError (Task × TaskCollection) :=
  if isBlank text then .error .InvalidInput
  else
    let t : Task := ⟨nextId ts, text, .NotStarted, now⟩
    .ok (t, ts ++ [t])

/-- Modelled from the spec: `edit(id, new_text)` — `TaskCompleted` if the
task's status is Completed, `NotFound` if the id is absent, otherwise
replaces the text. -/
def editTask (i : Nat) (newText : String) (u : Task) : Task :=
  if u.id == i then { u with text := newText } else u

def edit (i : Nat) (newText : String) (ts : TaskCollection) :
    Except TaskError TaskCollection :=
  match ts.find? (fun u => u.id == i) with
  | none => .error .NotFound
  | some t =>
    if t.status = .Completed then .error .TaskCompleted
    else .ok (ts.map (editTask i newText))

/-- Removes the first task with the given id, returning the task, its
original index and the remaining collection. -/
def removeById (i : Nat) : TaskCollection → Option (Task × Nat × TaskCollection)
  | [] => none
  | t :: ts =>
    if t.id == i then some (t, 0, ts)
    else
      match removeById i ts with
      | none => none
      | some (u, k, rest) => some (u, k + 1, t :: rest)

/-- Modelled from the spec: `delete(id)` — removes the task, records it
with its original index into the Undo Ledger, returns the removed task;
`NotFound` if the id is absent. -/
def delete (now : String) (i : Nat) (st : StoreState) :
    Except TaskError (Task × StoreState) :=
  match removeById i st.tasks with
  | none => .error .NotFound
  | some (t, k, rest) => .ok (t, ⟨rest, ledgerPush ⟨t, k, now⟩ st.ledger⟩)

/-- Insert a task at position k, clamped to the end of the list. -/
def insertAt (k : Nat) (t : Task) : TaskCollection → TaskCollection
  | [] => [t]
  | u :: us =>
    match k with
    | 0 => t :: u :: us
    | k + 1 => u :: insertAt k t us

/-- Modelled from the spec: `restore_last_deleted()` — pops the most
recently deleted entry (`NothingToUndo` if the ledger is empty); if a task
with that id now exists, fails with `IdConflict` and the entry is dropped;
otherwise reinserts the task at min(original_index, current_length). -/
def restore_last_deleted (st : StoreState) : Except UndoError Task × StoreState :=
  match st.ledger.getLast? with
  | none => (.error .NothingToUndo, st)
  | some e =>
    if st.tasks.any (fun u => u.id == e.task.id) then
      (.error .IdConflict, { st with ledger := st.ledger.dropLast })
    else
      (.ok e.task,
        ⟨insertAt (min e.original_index st.tasks.length) e.task st.tasks,
         st.ledger.dropLast⟩)

/-- Modelled from the spec: `set_status(id, status)` — update in place,
`NotFound` if absent, no restriction based on current status. -/
def setTask (i : Nat) (s : TaskStatus) (u : Task) : Task :=
  if u.id == i then { u with status := s } else u

def set_status (i : Nat) (s : TaskStatus) (ts : TaskCollection) :
    Except TaskError TaskCollection :=
  if ts.any (fun u => u.id == i) then .ok (ts.map (setTask i s))
  else .error .NotFound

/-- Modelled from the spec: `cycle_status(id)` — advance the task's status
along the cycling order, `NotFound` if absent. -/
def cycleTask (i : Nat) (u : Task) : Task :=
  if u.id == i then { u with status := nextStatus u.status } else u

def cycle_status (i : Nat) (ts : TaskCollection) :
    Except TaskError TaskCollection :=
  if ts.any (fun u => u.id == i) then .ok (ts.map (cycleTask i))
  else .error .NotFound

/-- A user-level mutation of one session, for stating sequence invariants. -/
inductive Op
  | add (now text : String)
  | delete (now : String) (i : Nat)
  | edit (i : Nat) (newText : String)

/-- Apply one operation; a failing operation leaves the state unchanged
(the spec: rejected actions have no partial effect). -/
def applyOp (st : StoreState) : Op → StoreState
  | .add now text =>
    match add now text st.tasks with
    | .ok (_, ts) => { st with tasks := ts }
    | .error _ => st
  | .delete now i =>
    match delete now i st with
    | .ok (_, st') => st'
    | .error _ => st
  | .edit i newText =>
    match edit i newText st.tasks with
    | .ok ts => { st with tasks := ts }
    | .error _ => st

/-- Apply a sequence of operations from left to right. -/
def applyOps (st : StoreState) (ops : List Op) : StoreState :=
  ops.foldl applyOp st

/-- Modelled from the spec: `StorageError` taxonomy of the backend. -/
inductive StorageError
  | IoError
  | DecodeError
  | ConnectionError
  | QueryError
deriving DecidableEq

/-- A small JSON value universe, enough for the persisted layouts. -/
inductive Json
  | str (s : String)
  | num (n : Nat)
  | arr (xs : List Json)
  | obj (fields : List (String × Json))

/-- Modelled from the spec: `status` is serialized as one of the three
literal names. -/
def encodeStatus : TaskStatus → String
  | .NotStarted => "NotStarted"
  | .InProgress => "InProgress"
  | .Completed => "Completed"

/-- Inverse of `encodeStatus`; unknown names decode to none. -/
def decodeStatus (s : String) : Option TaskStatus :=
  if s = "NotStarted" then some .NotStarted
  else if s = "InProgress" then some .InProgress
  else if s = "Completed" then some .Completed
  else none

/-- Modelled from the spec: persisted Local layout of one Task record —
{id, text, status, created_at} with status as a literal name. -/
def encodeTask (t : Task) : Json :=
  .obj [("id", .num t.id), ("text", .str t.text),
        ("status", .str (encodeStatus t.status)),
        ("created_at", .str t.created_at)]

/-- Decode one persisted Task record; anything malformed decodes to none. -/
def decodeTask : Json → Option Task
  | .obj [("id", .num i), ("text", .str tx), ("status", .str s), ("created_at", .str ca)] =>
    (decodeStatus s).map fun st => ⟨i, tx, st, ca⟩
  | _ => none

/-- Decode a list of persisted Task records; fails if any record fails. -/
def decodeTasks : List Json → Option (List Task)
  | [] => some []
  | j :: js =>
    match decodeTask j, decodeTasks js with
    | some t, some ts => some (t :: ts)
    | _, _ => none

/-- Modelled from the spec: a persisted collection is a JSON array of Task
records. -/
def encodeCollection (ts : TaskCollection) : Json := .arr (ts.map encodeTask)

/-- Decode a persisted collection; a non-array or a malformed element is a
decode failure. -/
def decodeCollection : Json → Option TaskCollection
  | .arr js => decodeTasks js
  | _ => none

/-- Modelled from the spec and src/README.md: the Local backend's
configuration is a single file path, default "~/.quill/storage/todos.json"
(config field `local_config.path`). -/
structure LocalConfig where
  path : String
deriving DecidableEq

/-- Modelled from src/README.md: the storage file for the Local backend is
the one configured path, the same for every Context. -/
def localFilePath (cfg : LocalConfig) (_c : Context) : String := cfg.path

/-- Modelled from the spec and src/README.md: the content of the Local
backend's JSON storage file — one JSON-encoded collection per Context key
held inside the single configured file. -/
structure LocalStore where
  file : List (Context × Json)

/-- Modelled from the spec: Local `save(context, collection)` —
full-collection overwrite semantics for the given context key. -/
def localSave (c : Context) (ts : TaskCollection) (st : LocalStore) : LocalStore :=
  ⟨(c, encodeCollection ts) :: st.file.filter (fun p => decide (p.1 ≠ c))⟩

/-- Modelled from the spec: Local `load(context)` — an empty collection
(not an error) if no prior data exists for that context; `DecodeError` on
malformed existing content. -/
def localLoad (c : Context) (st : LocalStore) : Except StorageError TaskCollection :=
  match st.file.find? (fun p => decide (p.1 = c)) with
  | none => .ok []
  | some (_, j) =>
    match decodeCollection j with
    | some ts => .ok ts
    | none => .error .DecodeError

/-- Modelled from the spec: Remote schema — each Task is a document
{organization, repository, branch, id, text, status, created_at}. -/
structure RemoteDoc where
  organization : String
  repository : String
  branch : String
  id : Nat
  text : String
  status : String
  created_at : String
deriving DecidableEq

/-- Tag a task with its Context, producing a remote document. -/
def taskToDoc (c : Context) (t : Task) : RemoteDoc :=
  ⟨c.organization, c.repository, c.branch, t.id, t.text,
   encodeStatus t.status, t.created_at⟩

/-- The compound filter key of a remote document. -/
def docContext (d : RemoteDoc) : Context := ⟨d.organization, d.repository, d.branch⟩

/-- Decode a remote document back into a Task; a malformed status string is
a query failure. -/
def docToTask (d : RemoteDoc) : Option Task :=
  (decodeStatus d.status).map fun st => ⟨d.id, d.text, st, d.created_at⟩

/-- Decode a list of remote documents; fails if any document fails. -/
def docsToTasks : List RemoteDoc → Option (List Task)
  | [] => some []
  | d :: ds =>
    match docToTask d, docsToTasks ds with
    | some t, some ts => some (t :: ts)
    | _, _ => none

/-- Modelled from the spec: the Remote backend's store — a collection of
documents tagged with the Context tuple. -/
abbrev RemoteStore := List RemoteDoc

/-- Modelled from the spec: Remote `save(context, collection)` — single
document/collection replace scoped by the context filter. -/
def remoteSave (c : Context) (ts : TaskCollection) (db : RemoteStore) : RemoteStore :=
  ts.map (taskToDoc c) ++ db.filter (fun d => decide (docContext d ≠ c))

/-- Modelled from the spec: Remote `load(context)` — queries filter on the
three context fields; `QueryError` for malformed remote data. -/
def remoteLoad (c : Context) (db : RemoteStore) : Except StorageError TaskCollection :=
  match docsToTasks (db.filter (fun d => decide (docContext d = c))) with
  | some ts => .ok ts
  | none => .error .QueryError

/-- Character list of a string (kernel-friendly view). -/
def chars (s : String) : List Char := s.data

/-- Rebuild a string from its character list. -/
def ofChars (cs : List Char) : String := ⟨cs⟩

/-- Split a character list on a separator character. -/
def splitOnChar (c : Char) : List Char → List (List Char)
  | [] => [[]]
  | x :: xs =>
    let r := splitOnChar c xs
    if x = c then [] :: r
    else
      match r with
      | [] => [[x]]
      | y :: ys => (x :: y) :: ys

/-- Drop a trailing ".git" from a repository segment, if present. -/
def stripGitSuffix (cs : List Char) : List Char :=
  if (chars ".git").isSuffixOf cs then cs.take (cs.length - 4) else cs

/-- Modelled from the spec: the SSH-style accepted remote shape
"git@host:ORG/REPO.git". -/
def parseSshUrl (cs : List Char) : Option (List Char × List Char) :=
  if (chars "git@").isPrefixOf cs then
    match splitOnChar ':' (cs.drop 4) with
    | [_host, path] =>
      match splitOnChar '/' path with
      | [org, repo] => some (org, stripGitSuffix repo)
      | _ => none
    | _ => none
  else none

/-- Modelled from the spec: the HTTPS-style accepted remote shape
"https://host/ORG/REPO" with optional ".git" suffix. -/
def parseHttpsUrl (cs : List Char) : Option (List Char × List Char) :=
  if (chars "https://").isPrefixOf cs then
    match splitOnChar '/' (cs.drop 8) with
    | [_host, org, repo] => some (org, stripGitSuffix repo)
    | _ => none
  else none

/-- Modelled from the spec: pattern-match the first configured remote URL
against the two accepted shapes, yielding (organization, repository). -/
def parseRemoteUrl (url : String) : Option (String × String) :=
  match parseSshUrl (chars url) with
  | some (o, r) => some (ofChars o, ofChars r)
  | none =>
    match parseHttpsUrl (chars url) with
    | some (o, r) => some (ofChars o, ofChars r)
    | none => none

/-- Modelled from the spec: the resolved organization — the placeholder
"local" when no remote is configured. -/
def organizationOf : Option String → String
  | none => "local"
  | some url =>
    match parseRemoteUrl url with
    | some (o, _) => o
    | none => "local"

theorem cycleTask_id (i : Nat) (u : Task) : (cycleTask i u).id = u.id := by
  unfold cycleTask
  split <;> rfl

theorem setTask_id (i : Nat) (s : TaskStatus) (u : Task) : (setTask i s u).id = u.id := by
  unfold setTask
  split <;> rfl

theorem editTask_id (i : Nat) (tx : String) (u : Task) : (editTask i tx u).id = u.id := by
  unfold editTask
  split <;> rfl

theorem nextStatus_three (s : TaskStatus) :
    nextStatus (nextStatus (nextStatus s)) = s := by
  cases s <;> rfl

theorem cycleTask_three (i : Nat) (u : Task) :
    cycleTask i (cycleTask i (cycleTask i u)) = u := by
  obtain ⟨a, b, s, d⟩ := u
  by_cases h : a = i
  · simp [cycleTask, h, nextStatus_three]
  · simp [cycleTask, h]

theorem map_cycleTask_three (i : Nat) (ts : TaskCollection) :
    ((ts.map (cycleTask i)).map (cycleTask i)).map (cycleTask i) = ts := by
  induction ts with
  | nil => rfl
  | cons t ts ih =>
    simp only [List.map_cons]
    rw [cycleTask_three, ih]

theorem any_id_map_cycle (i : Nat) (ts : TaskCollection) :
    (ts.map (cycleTask i)).any (fun u => u.id == i) = ts.any (fun u => u.id == i) := by
  rw [List.any_map]
  apply congrArg
  funext u
  simp only [Function.comp_apply, cycleTask_id]

/-- C7: cycle_status advances along NotStarted → InProgress → Completed →
NotStarted, so applying it three times to a present task id succeeds at
each step and returns the collection (hence the task's status) to exactly
its original value. -/
theorem C7_cycle_status_three (i : Nat) (ts : TaskCollection)
    (h : ts.any (fun u => u.id == i) = true) :
    ∃ ts1 ts2, cycle_status i ts = .ok ts1 ∧ cycle_status i ts1 = .ok ts2 ∧
      cycle_status i ts2 = .ok ts := by
  refine ⟨ts.map (cycleTask i), (ts.map (cycleTask i)).map (cycleTask i), ?_, ?_, ?_⟩
  · unfold cycle_status
    rw [if_pos h]
  · unfold cycle_status
    rw [if_pos]
    rw [any_id_map_cycle]
    exact h
  · unfold cycle_status
    rw [if_pos]
    · exact congrArg Except.ok (map_cycleTask_three i ts)
    · rw [any_id_map_cycle, any_id_map_cycle]
      exact h

/-- C7 witness: cycling a concrete one-task collection three times. -/
theorem C7_cycle_status_three_witness :
    ∃ ts1 ts2, cycle_status 0 [⟨0, "a", .NotStarted, "t"⟩] = .ok ts1 ∧
      cycle_status 0 ts1 = .ok ts2 ∧
      cycle_status 0 ts2 = .ok [⟨0, "a", .NotStarted, "t"⟩] :=
  C7_cycle_status_three 0 [⟨0, "a", .NotStarted, "t"⟩] (by decide)

/-- C8: the Context Resolver's organization extraction — the SSH shape
git@github.com:Acme/widgets.git yields ("Acme", "widgets"), the HTTPS
shape with or without a .git suffix yields the same, and a missing remote
yields the placeholder "local". -/
theorem C8_context_resolver_urls :
    parseRemoteUrl "git@github.com:Acme/widgets.git" = some ("Acme", "widgets") ∧
    parseRemoteUrl "https://github.com/Acme/widgets" = some ("Acme", "widgets") ∧
    parseRemoteUrl "https://github.com/Acme/widgets.git" = some ("Acme", "widgets") ∧
    organizationOf none = "local" := by
  refine ⟨by decide, by decide, by decide, rfl⟩

theorem ledgerPush_length_le (e : DeletedEntry) (l : List DeletedEntry)
    (h : l.length ≤ 3) : (ledgerPush e l).length ≤ 3 := by
  unfold ledgerPush
  split
  · rename_i hlt
    simp only [List.length_append, List.length_singleton]
    omega
  · rename_i hge
    simp only [List.length_append, List.length_singleton, List.length_drop]
    omega

/-- C3: the Undo Ledger is bounded by 3 — any sequence of pushes starting
from the empty ledger leaves at most 3 entries, and a push onto a full
ledger of 3 evicts exactly the oldest entry (FIFO), keeping the newer two
and appending the new one. -/
theorem C3_ledger_bounded_fifo :
    (∀ es : List DeletedEntry,
      (es.foldl (fun l e => ledgerPush e l) []).length ≤ 3) ∧
    (∀ (l : List DeletedEntry) (e : DeletedEntry), l.length = 3 →
      ledgerPush e l = l.drop 1 ++ [e]) := by
  constructor
  · intro es
    have key : ∀ (es : List DeletedEntry) (l : List DeletedEntry), l.length ≤ 3 →
        (es.foldl (fun l e => ledgerPush e l) l).length ≤ 3 := by
      intro es
      induction es with
      | nil => intro l h; exact h
      | cons e es ih =>
        intro l h
        exact ih (ledgerPush e l) (ledgerPush_length_le e l h)
    exact key es [] (by simp)
  · intro l e h
    unfold ledgerPush
    rw [if_neg]
    omega

/-- C3 witness: three concrete pushes stay within the bound, and a fourth
push onto the full ledger evicts the oldest of the three. -/
theorem C3_ledger_bounded_fifo_witness :
    ((([⟨⟨0, "a", .NotStarted, "t"⟩, 0, "t"⟩, ⟨⟨1, "b", .NotStarted, "t"⟩, 0, "t"⟩,
        ⟨⟨2, "c", .NotStarted, "t"⟩, 0, "t"⟩, ⟨⟨3, "d", .NotStarted, "t"⟩, 0, "t"⟩] :
        List DeletedEntry).foldl (fun l e => ledgerPush e l) []).length ≤ 3) ∧
    ledgerPush ⟨⟨3, "d", .NotStarted, "t"⟩, 0, "t"⟩
        [⟨⟨0, "a", .NotStarted, "t"⟩, 0, "t"⟩, ⟨⟨1, "b", .NotStarted, "t"⟩, 0, "t"⟩,
         ⟨⟨2, "c", .NotStarted, "t"⟩, 0, "t"⟩] =
      [⟨⟨1, "b", .NotStarted, "t"⟩, 0, "t"⟩, ⟨⟨2, "c", .NotStarted, "t"⟩, 0, "t"⟩,
       ⟨⟨3, "d", .NotStarted, "t"⟩, 0, "t"⟩] :=
  ⟨C3_ledger_bounded_fifo.1 _,
   C3_ledger_bounded_fifo.2 _ ⟨⟨3, "d", .NotStarted, "t"⟩, 0, "t"⟩ (by decide)⟩

/-- C5: add rejects empty/whitespace-only text with InvalidInput leaving
the session state unchanged; otherwise it appends a task whose id is the
maximum existing id plus 1 (0 when the collection is empty), with status
NotStarted. -/
theorem C5_add_contract (now text : String) (ts : TaskCollection)
    (l : List DeletedEntry) :
    (isBlank text = true →
      add now text ts = .error .InvalidInput ∧
      applyOp ⟨ts, l⟩ (.add now text) = ⟨ts, l⟩) ∧
    (isBlank text = false → ∃ t : Task,
      add now text ts = .ok (t, ts ++ [t]) ∧
      t.status = .NotStarted ∧ t.text = text ∧ t.created_at = now ∧
      t.id = (if ts = [] then 0 else (ts.map Task.id).foldr max 0 + 1)) := by
  constructor
  · intro hb
    have he : add now text ts = .error .InvalidInput := by
      unfold add
      rw [if_pos hb]
    exact ⟨he, by simp only [applyOp, he]⟩
  · intro hb
    refine ⟨⟨nextId ts, text, .NotStarted, now⟩, ?_, rfl, rfl, rfl, ?_⟩
    · unfold add
      rw [hb]
      simp
    · cases ts with
      | nil => rfl
      | cons t us => simp [nextId, maxId]

/-- C5 witness: a concrete non-blank add on the empty collection and a
concrete whitespace-only add. -/
theorem C5_add_contract_witness :
    (∃ t : Task, add "t" "hi" [] = .ok (t, [] ++ [t]) ∧
      t.status = .NotStarted ∧ t.text = "hi" ∧ t.created_at = "t" ∧
      t.id = (if ([] : TaskCollection) = [] then 0
              else (([] : TaskCollection).map Task.id).foldr max 0 + 1)) ∧
    (add "t" " " [] = .error .InvalidInput ∧
      applyOp ⟨[], []⟩ (.add "t" " ") = ⟨[], []⟩) :=
  ⟨(C5_add_contract "t" "hi" [] []).2 (by decide),
   (C5_add_contract "t" " " [] []).1 (by decide)⟩

theorem removeById_isSome_of_any (i : Nat) (ts : TaskCollection)
    (h : ts.any (fun u => u.id == i) = true) : (removeById i ts).isSome = true := by
  induction ts with
  | nil => simp at h
  | cons t us ih =>
    unfold removeById
    by_cases ht : (t.id == i) = true
    · rw [if_pos ht]
      rfl
    · rw [if_neg ht]
      have h' : us.any (fun u => u.id == i) = true := by
        simp only [List.any_cons] at h
        rw [Bool.not_eq_true] at ht
        rw [ht] at h
        simpa using h
      have := ih h'
      cases hrm : removeById i us with
      | none => rw [hrm] at this; simp at this
      | some x =>
        obtain ⟨u, k, rest⟩ := x
        rfl

/-- C6: editing a task whose status is Completed always fails with
TaskCompleted and leaves the session state (hence the task's text)
unchanged, while delete and both status-change operations on the same id
still succeed. -/
theorem C6_edit_completed (i : Nat) (newText now : String) (s : TaskStatus)
    (ts : TaskCollection) (l : List DeletedEntry) (t : Task)
    (hfind : ts.find? (fun u => u.id == i) = some t)
    (hc : t.status = .Completed) :
    edit i newText ts = .error .TaskCompleted ∧
    applyOp ⟨ts, l⟩ (.edit i newText) = ⟨ts, l⟩ ∧
    (delete now i ⟨ts, l⟩).isOk = true ∧
    (set_status i s ts).isOk = true ∧
    (cycle_status i ts).isOk = true := by
  have hany : ts.any (fun u => u.id == i) = true := by
    rw [List.any_eq_true]
    exact ⟨t, List.mem_of_find?_eq_some hfind,
      List.find?_some (p := fun (u : Task) => u.id == i) hfind⟩
  have hedit : edit i newText ts = .error .TaskCompleted := by
    unfold edit
    rw [hfind]
    exact if_pos hc
  refine ⟨hedit, by simp only [applyOp, hedit], ?_, ?_, ?_⟩
  · have hsome := removeById_isSome_of_any i ts hany
    unfold delete
    cases hrm : removeById i (⟨ts, l⟩ : StoreState).tasks with
    | none =>
      rw [hrm] at hsome
      simp at hsome
    | some x =>
      obtain ⟨u, k, rest⟩ := x
      rfl
  · unfold set_status
    rw [if_pos hany]
    rfl
  · unfold cycle_status
    rw [if_pos hany]
    rfl

/-- C6 witness: a concrete collection holding one Completed task. -/
theorem C6_edit_completed_witness :
    edit 0 "new" [⟨0, "a", .Completed, "x"⟩] = .error .TaskCompleted ∧
    applyOp ⟨[⟨0, "a", .Completed, "x"⟩], []⟩ (.edit 0 "new") =
      ⟨[⟨0, "a", .Completed, "x"⟩], []⟩ ∧
    (delete "y" 0 ⟨[⟨0, "a", .Completed, "x"⟩], []⟩).isOk = true ∧
    (set_status 0 .InProgress [⟨0, "a", .Completed, "x"⟩]).isOk = true ∧
    (cycle_status 0 [⟨0, "a", .Completed, "x"⟩]).isOk = true :=
  C6_edit_completed 0 "new" "y" .InProgress [⟨0, "a", .Completed, "x"⟩] []
    ⟨0, "a", .Completed, "x"⟩ (by decide) rfl

theorem mem_le_maxId (t : Task) (ts : TaskCollection) (h : t ∈ ts) :
    t.id ≤ maxId ts := by
  induction ts with
  | nil => cases h
  | cons u us ih =>
    have hmax : maxId (u :: us) = max u.id (maxId us) := by
      simp [maxId]
    rcases List.mem_cons.mp h with h1 | h2
    · rw [hmax, h1]
      exact le_max_left _ _
    · rw [hmax]
      exact le_trans (ih h2) (le_max_right _ _)

theorem nextId_not_mem (ts : TaskCollection) : nextId ts ∉ ts.map Task.id := by
  cases ts with
  | nil => simp
  | cons t us =>
    intro hmem
    obtain ⟨u, hu, hid⟩ := List.mem_map.mp hmem
    have hle := mem_le_maxId u (t :: us) hu
    rw [hid] at hle
    have : nextId (t :: us) = maxId (t :: us) + 1 := rfl
    omega

theorem nodup_ids_add (now text : String) (ts : TaskCollection)
    (h : (ts.map Task.id).Nodup) (t' : Task) (ts' : TaskCollection)
    (hadd : add now text ts = .ok (t', ts')) : (ts'.map Task.id).Nodup := by
  unfold add at hadd
  split at hadd
  · exact absurd hadd (by simp)
  · simp only [Except.ok.injEq, Prod.mk.injEq] at hadd
    obtain ⟨ht, hts⟩ := hadd
    subst hts
    rw [List.map_append, List.nodup_append]
    refine ⟨h, by simp, ?_⟩
    intro x hx hx'
    simp only [List.map_cons, List.map_nil, List.mem_singleton] at hx'
    subst hx'
    exact nextId_not_mem ts hx

theorem removeById_sublist (i : Nat) (ts : TaskCollection) (t : Task) (k : Nat)
    (rest : TaskCollection) (h : removeById i ts = some (t, k, rest)) :
    List.Sublist rest ts := by
  induction ts generalizing t k rest with
  | nil => simp [removeById] at h
  | cons u us ih =>
    unfold removeById at h
    by_cases hu : (u.id == i) = true
    · rw [if_pos hu] at h
      simp only [Option.some.injEq, Prod.mk.injEq] at h
      obtain ⟨-, -, hrest⟩ := h
      subst hrest
      exact (List.Sublist.refl us).cons u
    · rw [if_neg hu] at h
      cases hr : removeById i us with
      | none =>
        rw [hr] at h
        exact absurd h (by simp)
      | some x =>
        obtain ⟨u', k', rest'⟩ := x
        rw [hr] at h
        simp only [Option.some.injEq, Prod.mk.injEq] at h
        obtain ⟨-, -, hrest⟩ := h
        subst hrest
        exact (ih u' k' rest' hr).cons₂ u

theorem map_id_map_editTask (i : Nat) (tx : String) (ts : TaskCollection) :
    (ts.map (editTask i tx)).map Task.id = ts.map Task.id := by
  rw [List.map_map]
  apply List.map_congr_left
  intro a _
  simp only [Function.comp_apply, editTask_id]

theorem applyOp_nodup (st : StoreState) (o : Op)
    (h : (st.tasks.map Task.id).Nodup) :
    ((applyOp st o).tasks.map Task.id).Nodup := by
  cases o with
  | add now text =>
    simp only [applyOp]
    cases hadd : add now text st.tasks with
    | error e => exact h
    | ok p =>
      obtain ⟨t', ts'⟩ := p
      exact nodup_ids_add now text st.tasks h t' ts' hadd
  | delete now i =>
    simp only [applyOp]
    cases hdel : delete now i st with
    | error e => exact h
    | ok p =>
      obtain ⟨t', st'⟩ := p
      unfold delete at hdel
      cases hrm : removeById i st.tasks with
      | none =>
        rw [hrm] at hdel
        exact absurd hdel (by simp)
      | some x =>
        obtain ⟨t0, k, rest⟩ := x
        rw [hrm] at hdel
        simp only [Except.ok.injEq, Prod.mk.injEq] at hdel
        obtain ⟨-, hst⟩ := hdel
        rw [← hst]
        have hsub := removeById_sublist i st.tasks t0 k rest hrm
        exact h.sublist (hsub.map Task.id)
  | edit i tx =>
    simp only [applyOp]
    cases hed : edit i tx st.tasks with
    | error e => exact h
    | ok ts' =>
      unfold edit at hed
      cases hf : st.tasks.find? (fun u => u.id == i) with
      | none =>
        rw [hf] at hed
        exact absurd hed (by simp)
      | some t =>
        rw [hf] at hed
        split at hed
        · exact absurd hed (by simp)
        · split at hed
          · exact absurd hed (by simp)
          · injection hed with hed
            rw [← hed, map_id_map_editTask]
            exact h

/-- C2 (amended): for every sequence of add, delete and edit operations
starting from the empty session, task ids are unique at every point — the
state after any such sequence (hence after any prefix of a longer one) has
pairwise distinct ids. -/
theorem C2_unique_ids (ops : List Op) :
    ((applyOps initState ops).tasks.map Task.id).Nodup := by
  have key : ∀ (ops : List Op) (st : StoreState), (st.tasks.map Task.id).Nodup →
      ((applyOps st ops).tasks.map Task.id).Nodup := by
    intro ops
    induction ops with
    | nil => exact fun st h => h
    | cons o os ih => exact fun st h => ih (applyOp st o) (applyOp_nodup st o h)
  exact key ops initState (by simp [initState])

/-- C2 counterexample to the no-reuse half of the claim: after add "a"
(id 0) and add "b" (id 1), deleting id 1 and adding "c" reassigns the
deleted id 1 to the new task "c", because add assigns max existing id + 1.
-/
theorem C2_id_reuse_counterexample :
    ((applyOps initState [.add "t0" "a", .add "t1" "b"]).tasks.map
      (fun t => (t.id, t.text))) = [(0, "a"), (1, "b")] ∧
    ((applyOps initState [.add "t0" "a", .add "t1" "b", .delete "t2" 1]).tasks.map
      (fun t => (t.id, t.text))) = [(0, "a")] ∧
    ((applyOps initState
        [.add "t0" "a", .add "t1" "b", .delete "t2" 1, .add "t3" "c"]).tasks.map
      (fun t => (t.id, t.text))) = [(0, "a"), (1, "c")] := by
  refine ⟨by decide, by decide, by decide⟩

theorem insertAt_zero (t : Task) (l : TaskCollection) : insertAt 0 t l = t :: l := by
  cases l <;> rfl

theorem removeById_insertAt (i : Nat) (ts : TaskCollection) (t : Task) (k : Nat)
    (rest : TaskCollection) (h : removeById i ts = some (t, k, rest)) :
    insertAt k t rest = ts ∧ k ≤ rest.length := by
  induction ts generalizing t k rest with
  | nil => simp [removeById] at h
  | cons u us ih =>
    unfold removeById at h
    by_cases hu : (u.id == i) = true
    · rw [if_pos hu] at h
      simp only [Option.some.injEq, Prod.mk.injEq] at h
      obtain ⟨h1, h2, h3⟩ := h
      rw [← h1, ← h2, ← h3]
      exact ⟨insertAt_zero u us, Nat.zero_le _⟩
    · rw [if_neg hu] at h
      cases hr : removeById i us with
      | none =>
        rw [hr] at h
        exact absurd h (by simp)
      | some x =>
        obtain ⟨u', k', rest'⟩ := x
        rw [hr] at h
        simp only [Option.some.injEq, Prod.mk.injEq] at h
        obtain ⟨h1, h2, h3⟩ := h
        rw [← h1, ← h2, ← h3]
        obtain ⟨hi, hk⟩ := ih u' k' rest' hr
        constructor
        · show u :: insertAt k' u' rest' = u :: us
          rw [hi]
        · simp only [List.length_cons]
          omega

theorem removeById_mem (i : Nat) (ts : TaskCollection) (t : Task) (k : Nat)
    (rest : TaskCollection) (h : removeById i ts = some (t, k, rest)) : t ∈ ts := by
  induction ts generalizing t k rest with
  | nil => simp [removeById] at h
  | cons u us ih =>
    unfold removeById at h
    by_cases hu : (u.id == i) = true
    · rw [if_pos hu] at h
      simp only [Option.some.injEq, Prod.mk.injEq] at h
      obtain ⟨h1, -, -⟩ := h
      rw [← h1]
      exact List.mem_cons_self u us
    · rw [if_neg hu] at h
      cases hr : removeById i us with
      | none =>
        rw [hr] at h
        exact absurd h (by simp)
      | some x =>
        obtain ⟨u', k', rest'⟩ := x
        rw [hr] at h
        simp only [Option.some.injEq, Prod.mk.injEq] at h
        obtain ⟨h1, -, -⟩ := h
        rw [← h1]
        exact List.mem_cons_of_mem u (ih u' k' rest' hr)

theorem removeById_fresh (i : Nat) (ts : TaskCollection) (t : Task) (k : Nat)
    (rest : TaskCollection) (hnd : (ts.map Task.id).Nodup)
    (h : removeById i ts = some (t, k, rest)) :
    rest.any (fun u => u.id == t.id) = false := by
  induction ts generalizing t k rest with
  | nil => simp [removeById] at h
  | cons u us ih =>
    simp only [List.map_cons, List.nodup_cons] at hnd
    obtain ⟨hhead, htail⟩ := hnd
    unfold removeById at h
    by_cases hu : (u.id == i) = true
    · rw [if_pos hu] at h
      simp only [Option.some.injEq, Prod.mk.injEq] at h
      obtain ⟨h1, -, h3⟩ := h
      rw [← h1, ← h3]
      rw [List.any_eq_false]
      intro x hx hbeq
      have hxid : x.id = u.id := eq_of_beq hbeq
      refine hhead ?_
      rw [← hxid]
      exact List.mem_map_of_mem Task.id hx
    · rw [if_neg hu] at h
      cases hr : removeById i us with
      | none =>
        rw [hr] at h
        exact absurd h (by simp)
      | some x =>
        obtain ⟨u', k', rest'⟩ := x
        rw [hr] at h
        simp only [Option.some.injEq, Prod.mk.injEq] at h
        obtain ⟨h1, -, h3⟩ := h
        rw [← h1, ← h3]
        have hrec := ih u' k' rest' htail hr
        have htmem : u' ∈ us := removeById_mem i us u' k' rest' hr
        rw [List.any_eq_false]
        intro x hx hbeq
        rcases List.mem_cons.mp hx with h4 | h4
        · have hxid : x.id = u'.id := eq_of_beq hbeq
          refine hhead ?_
          rw [h4] at hxid
          rw [hxid]
          exact List.mem_map_of_mem Task.id htmem
        · rw [List.any_eq_false] at hrec
          exact hrec x h4 hbeq

theorem ledgerPush_getLast (e : DeletedEntry) (l : List DeletedEntry) :
    (ledgerPush e l).getLast? = some e := by
  unfold ledgerPush
  split <;> rw [List.getLast?_concat]

theorem restore_on_state (ts : TaskCollection) (l : List DeletedEntry)
    (e : DeletedEntry) (hl : l.getLast? = some e)
    (hc : ts.any (fun u => u.id == e.task.id) = false) :
    restore_last_deleted ⟨ts, l⟩ =
      (.ok e.task,
        ⟨insertAt (min e.original_index ts.length) e.task ts, l.dropLast⟩) := by
  simp only [restore_last_deleted, hl, hc]
  simp

/-- C4: for a collection with unique ids, delete(id) followed by
restore_last_deleted() with no intervening add returns the collection to
exactly its pre-delete content and ordering (the restore reinserting the
task at min(original_index, current_length), which equals its original
index here). -/
theorem C4_delete_restore (now : String) (st : StoreState) (i : Nat) (t : Task)
    (st' : StoreState) (hnd : (st.tasks.map Task.id).Nodup)
    (hdel : delete now i st = .ok (t, st')) :
    (restore_last_deleted st').1 = .ok t ∧
    (restore_last_deleted st').2.tasks = st.tasks := by
  unfold delete at hdel
  cases hrm : removeById i st.tasks with
  | none =>
    rw [hrm] at hdel
    exact absurd hdel (by simp)
  | some x =>
    obtain ⟨t0, k, rest⟩ := x
    rw [hrm] at hdel
    simp only [Except.ok.injEq, Prod.mk.injEq] at hdel
    obtain ⟨ht, hst⟩ := hdel
    rw [← hst, ← ht]
    obtain ⟨hins, hk⟩ := removeById_insertAt i st.tasks t0 k rest hrm
    have hfresh := removeById_fresh i st.tasks t0 k rest hnd hrm
    rw [restore_on_state rest (ledgerPush ⟨t0, k, now⟩ st.ledger) ⟨t0, k, now⟩
      (ledgerPush_getLast _ _) hfresh]
    refine ⟨rfl, ?_⟩
    show insertAt (min k rest.length) t0 rest = st.tasks
    rw [min_eq_left hk, hins]

/-- C4 witness: deleting id 0 from a concrete two-task collection and
restoring it returns the original collection. -/
theorem C4_delete_restore_witness :
    (restore_last_deleted ⟨[⟨1, "b", .InProgress, "y"⟩],
        [⟨⟨0, "a", .NotStarted, "x"⟩, 0, "z"⟩]⟩).1 = .ok ⟨0, "a", .NotStarted, "x"⟩ ∧
    (restore_last_deleted ⟨[⟨1, "b", .InProgress, "y"⟩],
        [⟨⟨0, "a", .NotStarted, "x"⟩, 0, "z"⟩]⟩).2.tasks =
      [⟨0, "a", .NotStarted, "x"⟩, ⟨1, "b", .InProgress, "y"⟩] :=
  C4_delete_restore "z"
    ⟨[⟨0, "a", .NotStarted, "x"⟩, ⟨1, "b", .InProgress, "y"⟩], []⟩ 0
    ⟨0, "a", .NotStarted, "x"⟩
    ⟨[⟨1, "b", .InProgress, "y"⟩], [⟨⟨0, "a", .NotStarted, "x"⟩, 0, "z"⟩]⟩
    (by decide) rfl

theorem decodeStatus_encodeStatus (s : TaskStatus) :
    decodeStatus (encodeStatus s) = some s := by
  cases s <;> rfl

theorem decodeTask_encodeTask (t : Task) : decodeTask (encodeTask t) = some t := by
  obtain ⟨a, b, s, d⟩ := t
  cases s <;> rfl

theorem decodeTasks_encode (ts : TaskCollection) :
    decodeTasks (ts.map encodeTask) = some ts := by
  induction ts with
  | nil => rfl
  | cons t ts ih =>
    simp only [List.map_cons]
    unfold decodeTasks
    rw [decodeTask_encodeTask, ih]

theorem localLoad_localSave_self (c : Context) (ts : TaskCollection)
    (st : LocalStore) : localLoad c (localSave c ts st) = .ok ts := by
  unfold localLoad localSave
  rw [List.find?_cons_of_pos _ (by simp)]
  show (match decodeTasks (ts.map encodeTask) with
    | some ts => Except.ok ts
    | none => Except.error StorageError.DecodeError) = Except.ok ts
  rw [decodeTasks_encode]

theorem docToTask_taskToDoc (c : Context) (t : Task) :
    docToTask (taskToDoc c t) = some t := by
  obtain ⟨a, b, s, d⟩ := t
  cases s <;> rfl

theorem docContext_taskToDoc (c : Context) (t : Task) :
    docContext (taskToDoc c t) = c := rfl

theorem docsToTasks_map_taskToDoc (c : Context) (ts : TaskCollection) :
    docsToTasks (ts.map (taskToDoc c)) = some ts := by
  induction ts with
  | nil => rfl
  | cons t ts ih =>
    simp only [List.map_cons]
    unfold docsToTasks
    rw [docToTask_taskToDoc, ih]

theorem remoteLoad_remoteSave_self (c : Context) (ts : TaskCollection)
    (db : RemoteStore) : remoteLoad c (remoteSave c ts db) = .ok ts := by
  unfold remoteLoad remoteSave
  rw [List.filter_append]
  have h1 : (ts.map (taskToDoc c)).filter (fun d => decide (docContext d = c)) =
      ts.map (taskToDoc c) := by
    rw [List.filter_eq_self]
    intro a ha
    obtain ⟨t, -, hd⟩ := List.mem_map.mp ha
    rw [← hd]
    simp [docContext_taskToDoc]
  have h2 : (db.filter (fun d => decide (docContext d ≠ c))).filter
      (fun d => decide (docContext d = c)) = [] := by
    rw [List.filter_eq_nil_iff]
    intro a ha
    have hne := List.of_mem_filter ha
    simp only [decide_eq_true_eq] at hne ⊢
    exact hne
  rw [h1, h2, List.append_nil, docsToTasks_map_taskToDoc]

/-- C1: for every Context and every TaskCollection, load immediately after
save returns the saved collection, identically for the Local (JSON file)
backend and the Remote (context-tagged documents) backend. -/
theorem C1_save_load_roundtrip (c : Context) (ts : TaskCollection)
    (st : LocalStore) (db : RemoteStore) :
    localLoad c (localSave c ts st) = .ok ts ∧
    remoteLoad c (remoteSave c ts db) = .ok ts :=
  ⟨localLoad_localSave_self c ts st, remoteLoad_remoteSave_self c ts db⟩

theorem find?_key_filter_ne (c c' : Context) (l : List (Context × Json))
    (h : c ≠ c') :
    (l.filter (fun p => decide (p.1 ≠ c))).find? (fun p => decide (p.1 = c')) =
      l.find? (fun p => decide (p.1 = c')) := by
  induction l with
  | nil => rfl
  | cons q l ih =>
    by_cases hq : q.1 = c
    · rw [List.filter_cons, if_neg (by simp [hq])]
      rw [List.find?_cons_of_neg _
        (by simp only [decide_eq_true_eq]; intro hc; exact h (hq.symm.trans hc))]
      exact ih
    · rw [List.filter_cons, if_pos (by simp [hq])]
      by_cases hq' : q.1 = c'
      · rw [List.find?_cons_of_pos _ (by simp [hq']),
          List.find?_cons_of_pos _ (by simp [hq'])]
      · rw [List.find?_cons_of_neg _ (by simp [hq']),
          List.find?_cons_of_neg _ (by simp [hq'])]
        exact ih

/-- C9 counterexample: the Local backend's storage file path is the
configured path itself (default "~/.quill/storage/todos.json",
src/README.md), so two distinct Contexts — here two branches of the same
repository — share the identical storage file, contradicting the claimed
per-Context file path. -/
theorem C9_single_file_counterexample :
    (⟨"Acme", "widgets", "main"⟩ : Context) ≠ ⟨"Acme", "widgets", "feature-x"⟩ ∧
    localFilePath ⟨"~/.quill/storage/todos.json"⟩ ⟨"Acme", "widgets", "main"⟩ =
      localFilePath ⟨"~/.quill/storage/todos.json"⟩ ⟨"Acme", "widgets", "feature-x"⟩ :=
  ⟨by decide, rfl⟩

/-- C9 (amended): the Local backend keeps one JSON-encoded collection per
distinct Context inside the single configured storage file: the file path
is the same for every Context, and saving under one Context leaves the
collection loaded by any other Context unchanged. -/
theorem C9_per_context_isolation (cfg : LocalConfig) (c c' : Context)
    (ts : TaskCollection) (st : LocalStore) (h : c ≠ c') :
    localFilePath cfg c = localFilePath cfg c' ∧
    localLoad c' (localSave c ts st) = localLoad c' st := by
  refine ⟨rfl, ?_⟩
  unfold localLoad localSave
  rw [List.find?_cons_of_neg _ (by simp only [decide_eq_true_eq]; exact h)]
  rw [find?_key_filter_ne c c' st.file h]

/-- C9 witness: the isolation statement at two concrete branch contexts of
the default configuration. -/
theorem C9_per_context_isolation_witness :
    localFilePath ⟨"~/.quill/storage/todos.json"⟩ ⟨"Acme", "widgets", "main"⟩ =
      localFilePath ⟨"~/.quill/storage/todos.json"⟩ ⟨"Acme", "widgets", "feature-x"⟩ ∧
    localLoad ⟨"Acme", "widgets", "feature-x"⟩
        (localSave ⟨"Acme", "widgets", "main"⟩ [⟨0, "a", .NotStarted, "t"⟩] ⟨[]⟩) =
      localLoad ⟨"Acme", "widgets", "feature-x"⟩ ⟨[]⟩ :=
  C9_per_context_isolation ⟨"~/.quill/storage/todos.json"⟩
    ⟨"Acme", "widgets", "main"⟩ ⟨"Acme", "widgets", "feature-x"⟩
    [⟨0, "a", .NotStarted, "t"⟩] ⟨[]⟩ (by decide)

end Quill
